import Mathlib

set_option maxRecDepth 1000000

/-!
Verification model of the js-draw spatial index (`EditorImage` / `ImageNode`).

The mutable `ImageNode` tree of the source keeps parent/child
back-references (a cyclic object graph) and a class-static version-stamp
counter (`ImageNode.idCounter`).  We therefore model the JavaScript object
heap explicitly: nodes live in a heap (a list of node records addressed by
index, an address plays the role of a JS object reference), and every
method of the source becomes a function threading that heap.  Recursion
that follows heap references (child lists, parent chains, the query work
list) takes an explicit fuel argument; all call sites of interest use
ample fuel, and theorems about the query functions either hold for every
fuel or carry an explicit fuel-sufficiency hypothesis.

Numbers are modelled as exact rationals (the scenarios below use integral
coordinates, so no floating-point rounding is involved); the NaN/infinity
behaviour needed for the insert-validation claim is modelled separately by
an IEEE-style extended number type `JNum`.
-/

/-- Modelled from the spec: the geometry utility (the repository's `Rect2`
class) is not among the given sources; the spec describes it as an
axis-aligned rectangle type with union, intersects (boolean), intersection
(nullable overlap rectangle), contains-rect, area and
equality-with-tolerance.  A rectangle is the closed region from `(x, y)`
to `(x + w, y + h)`; `intersects` holds when the closed regions share a
point, and `intersection` is the shared rectangle when they do.  `union`
is the bounding box of the two corner pairs with no special case for the
empty rectangle `(0, 0, 0, 0)` — the `isFirst` workaround inside
`ImageNode.recomputeBBox` is direct evidence that the source's union
treats the empty rectangle as the degenerate point at the origin. -/
structure Rect2 where
  x : ℚ
  y : ℚ
  w : ℚ
  h : ℚ
deriving DecidableEq

def Rect2.x2 (r : Rect2) : ℚ := r.x + r.w

def Rect2.y2 (r : Rect2) : ℚ := r.y + r.h

def Rect2.empty : Rect2 := ⟨0, 0, 0, 0⟩

def Rect2.union (a b : Rect2) : Rect2 :=
  ⟨min a.x b.x, min a.y b.y,
   max a.x2 b.x2 - min a.x b.x, max a.y2 b.y2 - min a.y b.y⟩

def Rect2.intersects (a b : Rect2) : Bool :=
  decide (a.x ≤ b.x2) && decide (b.x ≤ a.x2) && decide (a.y ≤ b.y2) && decide (b.y ≤ a.y2)

def Rect2.intersection (a b : Rect2) : Option Rect2 :=
  if a.intersects b then
    some ⟨max a.x b.x, max a.y b.y,
          min a.x2 b.x2 - max a.x b.x, min a.y2 b.y2 - max a.y b.y⟩
  else
    none

def Rect2.containsRect (a b : Rect2) : Bool :=
  decide (a.x ≤ b.x) && decide (a.y ≤ b.y) && decide (b.x2 ≤ a.x2) && decide (b.y2 ≤ a.y2)

def Rect2.area (r : Rect2) : ℚ := r.w * r.h

/-- Equality with tolerance; in the exact-rational model the tolerance is 0
(the source calls `oldBBox.eq(this.bbox)` with the default fuzz). -/
def Rect2.eq (a b : Rect2) : Bool := a == b

/-- The element capability consumed by the index: a bounding box, a stable
unique identifier and a z-index (`AbstractComponent` exposes `getBBox`,
`getId`, `getZIndex`).  Two model values are equal exactly when all fields
agree; elements used in the concrete scenarios carry distinct ids, so
model equality coincides with JS reference equality there. -/
structure AbstractComponent where
  elemId : Nat
  bbox : Rect2
  zIndex : ℤ
deriving DecidableEq

def defaultComponent : AbstractComponent := ⟨0, Rect2.empty, 0⟩

/-- One `ImageNode` object: `content`, `bbox`, `children` (heap addresses),
`parent` (a nullable heap address) and the version stamp `id` (renamed
`versionId` here to avoid confusion with heap addresses). -/
structure NodeData where
  content : Option AbstractComponent
  bbox : Rect2
  children : List Nat
  parent : Option Nat
  versionId : Nat
deriving DecidableEq

def defaultNode : NodeData := ⟨none, Rect2.empty, [], none, 0⟩

/-- The JS heap of `ImageNode` objects together with the class-static
counter `ImageNode.idCounter` (shared by every node of every
`EditorImage` in the process). -/
structure Heap where
  nodes : List NodeData
  idCounter : Nat
deriving DecidableEq

def Heap.nd (st : Heap) (i : Nat) : NodeData := st.nodes.getD i defaultNode

def Heap.setNode (st : Heap) (i : Nat) (n : NodeData) : Heap :=
  { st with nodes := st.nodes.set i n }

def Heap.setContent (st : Heap) (i : Nat) (c : Option AbstractComponent) : Heap :=
  st.setNode i { st.nd i with content := c }

def Heap.setBBox (st : Heap) (i : Nat) (b : Rect2) : Heap :=
  st.setNode i { st.nd i with bbox := b }

def Heap.setChildren (st : Heap) (i : Nat) (cs : List Nat) : Heap :=
  st.setNode i { st.nd i with children := cs }

def Heap.setParent (st : Heap) (i : Nat) (p : Option Nat) : Heap :=
  st.setNode i { st.nd i with parent := p }

def Heap.pushChild (st : Heap) (i c : Nat) : Heap :=
  st.setChildren i ((st.nd i).children ++ [c])

def targetChildCount : Nat := 30

/-- The `ImageNode` constructor: fresh node with no children, empty bbox,
null content, the given parent, and `id = ImageNode.idCounter++`. -/
def ImageNode.new (parent : Option Nat) (st : Heap) : Nat × Heap :=
  (st.nodes.length,
   { nodes := st.nodes ++ [⟨none, Rect2.empty, [], parent, st.idCounter⟩],
     idCounter := st.idCounter + 1 })

/-- Method `onContentChange`: `this.id = ImageNode.idCounter++`. -/
def ImageNode.onContentChange (i : Nat) (st : Heap) : Heap :=
  { st.setNode i { st.nd i with versionId := st.idCounter } with
    idCounter := st.idCounter + 1 }

/-- Method `recomputeBBox(bubbleUp)`: leaf bbox is the content's bbox; internal
bbox folds `union` over the children starting from the first child
(`isFirst`), `Rect2.empty` if childless.  If `bubbleUp` and the bbox
changed (`!oldBBox.eq(this.bbox)`), recurse into the parent. -/
def ImageNode.recomputeBBox (fuel : Nat) (i : Nat) (bubbleUp : Bool) (st : Heap) : Heap :=
  match fuel with
  | 0 => st
  | fuel + 1 =>
    let n := st.nd i
    let oldBBox := n.bbox
    let newBBox :=
      match n.content with
      | some c => c.bbox
      | none =>
        match n.children with
        | [] => Rect2.empty
        | c0 :: rest => rest.foldl (fun acc c => acc.union (st.nd c).bbox) (st.nd c0).bbox
    let st := st.setBBox i newBBox
    if bubbleUp && !(oldBBox.eq newBBox) then
      match n.parent with
      | some p => ImageNode.recomputeBBox fuel p true st
      | none => st
    else
      st

/-- Method `updateParents(recursive)`: set every child's parent to this node,
recursing when `recursive` (the source only ever calls it with the
default `recursive = false`). -/
def ImageNode.updateParents (fuel : Nat) (i : Nat) (recursive : Bool) (st : Heap) : Heap :=
  match fuel with
  | 0 => st
  | fuel + 1 =>
    (st.nd i).children.foldl
      (fun st c =>
        let st := st.setParent c (some i)
        if recursive then ImageNode.updateParents fuel c recursive st else st)
      st

/-- Method `rebalance()`: if this node is its parent's only child, either lift
this node to the grandparent (when the parent is not the root) or, when
the parent is the root and this node is internal, transfer this node's
children to the root.  This is a line-by-line translation; note that the
non-root branch empties `oldParent.children` and clears
`oldParent.parent` but never removes `oldParent` from the grandparent's
child list. -/
def ImageNode.rebalance (fuel : Nat) (i : Nat) (st : Heap) : Heap :=
  match (st.nd i).parent with
  | none => st
  | some p =>
    if (st.nd p).children.length = 1 then
      let oldParent := p
      match (st.nd oldParent).parent with
      | some gp =>
        let st := st.setChildren oldParent []
        let st := st.setParent i (some gp)
        let st := st.pushChild gp i
        let st := st.setParent oldParent none
        ImageNode.recomputeBBox fuel gp false st
      | none =>
        if (st.nd i).content = none then
          let st := st.setChildren p (st.nd i).children
          let st := ImageNode.updateParents fuel p false st
          st.setParent i none
        else
          st
    else
      st

/-- Method `remove()`: for the root, just clear content and children; otherwise
filter this node out of the parent's child list, rebalance each remaining
sibling, recompute the parent's bbox with bubble-up, then invalidate this
node. -/
def ImageNode.remove (fuel : Nat) (i : Nat) (st : Heap) : Heap :=
  match (st.nd i).parent with
  | none =>
    let st := st.setContent i none
    st.setChildren i []
  | some p =>
    let st := st.setChildren p ((st.nd p).children.filter (fun c => c != i))
    let st := (st.nd p).children.foldl (fun st c => ImageNode.rebalance fuel c st) st
    let st := ImageNode.recomputeBBox fuel p true st
    let st := st.setContent i none
    let st := st.setParent i none
    st.setChildren i []

/-- Method `addLeaf(leaf)`: the insertion algorithm.  Branches, in source order:
fill an empty node directly; displace existing content into a fresh child;
if the new leaf's bbox contains this node's bbox, insert a sibling slot
(splitting the children into one intermediate node when the target
fan-out is reached) and recurse into the fresh slot; else if some child
contains the leaf and the fan-out target is reached, recurse into the
smallest-area containing child and rebalance the result; otherwise append
a fresh leaf child and recompute with bubble-up. -/
def ImageNode.addLeaf (fuel : Nat) (i : Nat) (leaf : AbstractComponent) (st : Heap) :
    Nat × Heap :=
  match fuel with
  | 0 => (i, st)
  | fuel + 1 =>
    let st := ImageNode.onContentChange i st
    if (st.nd i).content = none ∧ (st.nd i).children = [] then
      let st := st.setContent i (some leaf)
      let st := ImageNode.recomputeBBox (fuel + 1) i true st
      (i, st)
    else
      let st :=
        if (st.nd i).content ≠ none then
          let alloc := ImageNode.new (some i) st
          let contentNode := alloc.1
          let st := alloc.2
          let st := st.setContent contentNode (st.nd i).content
          let st := st.setContent i none
          let st := st.pushChild i contentNode
          ImageNode.recomputeBBox (fuel + 1) contentNode false st
        else
          st
      let leafBBox := leaf.bbox
      if leafBBox.containsRect (st.nd i).bbox then
        let alloc := ImageNode.new (some i) st
        let nodeForNewLeaf := alloc.1
        let st := alloc.2
        let st :=
          if (st.nd i).children.length < targetChildCount then
            st.pushChild i nodeForNewLeaf
          else
            let alloc2 := ImageNode.new (some i) st
            let nodeForChildren := alloc2.1
            let st := alloc2.2
            let st := st.setChildren nodeForChildren (st.nd i).children
            let st := st.setChildren i [nodeForNewLeaf, nodeForChildren]
            let st := ImageNode.recomputeBBox (fuel + 1) nodeForChildren true st
            ImageNode.updateParents (fuel + 1) nodeForChildren false st
        ImageNode.addLeaf fuel nodeForNewLeaf leaf st
      else
        let containingNodes :=
          (st.nd i).children.filter (fun c => ((st.nd c).bbox).containsRect leafBBox)
        if containingNodes ≠ [] ∧ (st.nd i).children.length ≥ targetChildCount then
          let sorted := containingNodes.insertionSort
            (fun a b => (st.nd a).bbox.area ≤ (st.nd b).bbox.area)
          let c0 := sorted.headD 0
          let res := ImageNode.addLeaf fuel c0 leaf st
          let result := res.1
          let st := res.2
          let st := ImageNode.rebalance (fuel + 1) result st
          (result, st)
        else
          let alloc := ImageNode.new (some i) st
          let newNode := alloc.1
          let st := alloc.2
          let st := st.pushChild i newNode
          let st := st.setContent newNode (some leaf)
          let st := ImageNode.recomputeBBox (fuel + 1) newNode true st
          (newNode, st)

/-- Method `getChildrenIntersectingRegion(region)`: the children whose bbox
intersects the region. -/
def ImageNode.getChildrenIntersectingRegion (st : Heap) (i : Nat) (region : Rect2) :
    List Nat :=
  (st.nd i).children.filter (fun c => (st.nd c).bbox.intersects region)

/-- The work-list loop of `getLeavesIntersectingRegion`.  The JS work list
is an array pushed/popped at its end; here the list head is the top of
the stack, so pushing the spread of the children appends their reversal
in front.  A popped node is skipped entirely when `isTooSmall` holds of
its bbox; it is appended to the result when it has content and its bbox
has a non-null intersection with the region; its intersecting children
are then pushed. -/
def ImageNode.getLeavesIntersectingRegionLoop (st : Heap) (region : Rect2)
    (isTooSmall : Rect2 → Bool) : Nat → List Nat → List Nat → List Nat
  | 0, _, result => result
  | _ + 1, [], result => result
  | fuel + 1, next :: workList, result =>
    if isTooSmall (st.nd next).bbox then
      ImageNode.getLeavesIntersectingRegionLoop st region isTooSmall fuel workList result
    else
      let result :=
        if (st.nd next).content.isSome && ((st.nd next).bbox.intersection region).isSome then
          result ++ [next]
        else
          result
      ImageNode.getLeavesIntersectingRegionLoop st region isTooSmall fuel
        ((ImageNode.getChildrenIntersectingRegion st next region).reverse ++ workList)
        result

/-- Method `getLeavesIntersectingRegion(region, isTooSmall?)`: run the work-list
loop starting from this node. -/
def ImageNode.getLeavesIntersectingRegion (fuel : Nat) (st : Heap) (i : Nat)
    (region : Rect2) (isTooSmall : Rect2 → Bool) : List Nat :=
  ImageNode.getLeavesIntersectingRegionLoop st region isTooSmall fuel [i] []

/-- Method `getLeaves()`: this node when it has content, otherwise the
concatenation of the children's leaves. -/
def ImageNode.getLeaves (fuel : Nat) (st : Heap) (i : Nat) : List Nat :=
  match fuel with
  | 0 => []
  | fuel + 1 =>
    if (st.nd i).content.isSome then
      [i]
    else
      ((st.nd i).children.map (fun c => ImageNode.getLeaves fuel st c)).flatten

/-- The z-index sort key read by `sortLeavesByZIndex`: the source
dereferences `getContent()!`; the model reads the content with a default
that is shown (claim C10) to be unreachable on query results. -/
def zKeyD (st : Heap) (i : Nat) : ℤ := (((st.nd i).content).getD defaultComponent).zIndex

/-- Function `sortLeavesByZIndex`: JS `Array.prototype.sort` with the comparator
`a.getContent()!.getZIndex() - b.getContent()!.getZIndex()`.  A
specification-conforming JS sort is a stable comparison sort, and all
stable sorts agree for a total preorder key, so the model may use any
stable sort; it uses insertion sort (which is also stable: an element is
inserted behind the equal-keyed elements that preceded it). -/
def sortLeavesByZIndex (st : Heap) (leaves : List Nat) : List Nat :=
  leaves.insertionSort (fun a b => zKeyD st a ≤ zKeyD st b)

/-- Class `EditorImage`: the root node reference plus the `componentsById`
registry (modelled as an association list with record-overwrite
semantics). -/
structure EditorImage where
  root : Nat
  componentsById : List (Nat × AbstractComponent)
deriving DecidableEq

/-- The `EditorImage` constructor: a fresh root node, empty registry. -/
def EditorImage.new (st : Heap) : EditorImage × Heap :=
  let alloc := ImageNode.new none st
  (⟨alloc.1, []⟩, alloc.2)

/-- Method `getElementsIntersectingRegion(region)`: collect the intersecting
leaves, sort them by z-index, map `getContent()!`. -/
def EditorImage.getElementsIntersectingRegion (fuel : Nat) (img : EditorImage) (st : Heap)
    (region : Rect2) : List AbstractComponent :=
  let leaves := ImageNode.getLeavesIntersectingRegion fuel st img.root region (fun _ => false)
  (sortLeavesByZIndex st leaves).map (fun i => ((st.nd i).content).getD defaultComponent)

/-- Method `lookupElement(id)`: registry lookup, null when absent. -/
def EditorImage.lookupElement (img : EditorImage) (id : Nat) : Option AbstractComponent :=
  (img.componentsById.find? (fun p => p.1 == id)).map Prod.snd

/-- Method `onDestroyElement(elem)`: delete the registry entry for the element's
id. -/
def EditorImage.onDestroyElement (img : EditorImage) (elem : AbstractComponent) :
    EditorImage :=
  { img with componentsById := img.componentsById.filter (fun p => p.1 != elem.elemId) }

/-- Method `addElementDirectly(elem)`: store the element in the registry and add
a leaf under the root; returns the new leaf node as well. -/
def EditorImage.addElementDirectly (fuel : Nat) (img : EditorImage)
    (elem : AbstractComponent) (st : Heap) : EditorImage × Nat × Heap :=
  let img := { img with componentsById :=
    (elem.elemId, elem) :: img.componentsById.filter (fun p => p.1 != elem.elemId) }
  let res := ImageNode.addLeaf fuel img.root elem st
  (img, res.1, res.2)

/-- Method `findParent(elem)`: the first leaf intersecting the element's own bbox
whose content is reference-equal to the element. -/
def EditorImage.findParent (fuel : Nat) (img : EditorImage) (st : Heap)
    (elem : AbstractComponent) : Option Nat :=
  (ImageNode.getLeavesIntersectingRegion fuel st img.root elem.bbox (fun _ => false)).find?
    (fun c => (st.nd c).content == some elem)

/-- Method `AddElementCommand.apply`: `editor.image.addElementDirectly(this.element)`
(the re-render bookkeeping has no effect on the index). -/
def applyAddElementCommand (fuel : Nat) (img : EditorImage) (elem : AbstractComponent)
    (st : Heap) : EditorImage × Heap :=
  let res := EditorImage.addElementDirectly fuel img elem st
  (res.1, res.2.2)

/-- Method `AddElementCommand.unapply`: find the element's leaf and call
`remove()` on it; the registry is not touched. -/
def unapplyAddElementCommand (fuel : Nat) (img : EditorImage) (elem : AbstractComponent)
    (st : Heap) : EditorImage × Heap :=
  match EditorImage.findParent fuel img st elem with
  | some container => (img, ImageNode.remove fuel container st)
  | none => (img, st)

/-- A pure rose-tree view of a heap subtree, used to state and prove the
general theorems about the query functions and the invariants. -/
inductive QTree where
  | mk (nid : Nat) (content : Option AbstractComponent) (bbox : Rect2) (children : List QTree)

def QTree.nid : QTree → Nat
  | ⟨n, _, _, _⟩ => n

def QTree.content : QTree → Option AbstractComponent
  | ⟨_, c, _, _⟩ => c

def QTree.bbox : QTree → Rect2
  | ⟨_, _, b, _⟩ => b

def QTree.children : QTree → List QTree
  | ⟨_, _, _, cs⟩ => cs

def QTree.size : QTree → Nat
  | ⟨_, _, _, cs⟩ => 1 + (cs.attach.map (fun c => QTree.size c.1)).sum
decreasing_by
  have := List.sizeOf_lt_of_mem c.2
  simp only [QTree.mk.sizeOf_spec]
  omega

/-- A functional view of the subtree rooted at a heap address: node ids,
contents, cached bboxes and child lists as they stand in the heap.  The
depth fuel makes the extraction total; a view exists exactly when the
child graph below the address is a finite tree of depth below the fuel
with valid addresses. -/
def optionList {α β : Type} (f : α → Option β) : List α → Option (List β)
  | [] => some []
  | a :: l =>
    match f a, optionList f l with
    | some b, some bs => some (b :: bs)
    | _, _ => none

def Heap.view (st : Heap) : Nat → Nat → Option QTree
  | 0, _ => none
  | d + 1, i =>
    if i < st.nodes.length then
      match optionList (st.view d) (st.nd i).children with
      | some cs => some ⟨i, (st.nd i).content, (st.nd i).bbox, cs⟩
      | none => none
    else
      none

/-- A heap address has the given view at some depth: the subtree below it
is a finite tree of valid addresses whose records read back as `t`. -/
def ViewAt (st : Heap) (i : Nat) (t : QTree) : Prop := ∃ d, st.view d i = some t

/-- The leaves of a view, mirroring `getLeaves`: the node itself when it
has content, otherwise the concatenation of the children's leaves. -/
def QTree.leavesList : QTree → List QTree
  | ⟨n, c, b, cs⟩ =>
    if c.isSome then [⟨n, c, b, cs⟩]
    else ((cs.attach.map (fun x => QTree.leavesList x.1)).flatten)
decreasing_by
  have := List.sizeOf_lt_of_mem x.2
  simp only [QTree.mk.sizeOf_spec]
  omega

/-- Spec invariant 1 on a view: a node with content has no children. -/
def contentWfB : QTree → Bool
  | ⟨_, c, _, cs⟩ =>
    (!c.isSome || cs.isEmpty) && cs.attach.all (fun x => contentWfB x.1)
decreasing_by
  have := List.sizeOf_lt_of_mem x.2
  simp only [QTree.mk.sizeOf_spec]
  omega

/-- The aggregate-bbox property actually needed by the query theorems:
every node's cached bbox contains the bbox of every leaf below each of
its children.  This is a consequence of spec invariant 2 but survives
states (produced by the rebalance defect) where a childless internal node
with an empty bbox is still listed among some node's children. -/
def leavesContainedB : QTree → Bool
  | ⟨_, _, b, cs⟩ =>
    cs.attach.all (fun x =>
      (x.1.leavesList.all (fun l => b.containsRect l.bbox)) && leavesContainedB x.1)
decreasing_by
  have := List.sizeOf_lt_of_mem x.2
  simp only [QTree.mk.sizeOf_spec]
  omega

/-- The well-formedness assumed by the query-membership theorem. -/
def queryWF (t : QTree) : Bool := contentWfB t && leavesContainedB t

/-- The self-test applied by the query loop to a popped node: it has
content and its bbox has a non-null intersection with the region. -/
def leafQueryHit (region : Rect2) (t : QTree) : Bool :=
  t.content.isSome && (t.bbox.intersection region).isSome

/-- The filter applied by the query loop before pushing a child. -/
def queryKeep (region : Rect2) (t : QTree) : Bool := t.bbox.intersects region

/-- IEEE-754-style extended numbers, for the insert-validation claim: JS
numbers include NaN and the two infinities.  Finite values are exact
rationals (no rounding occurs in the validation computation). -/
inductive JNum where
  | num (q : ℚ)
  | posInf
  | negInf
  | nan
deriving DecidableEq

def JNum.isNaN : JNum → Bool
  | nan => true
  | _ => false

def JNum.isFinite : JNum → Bool
  | num _ => true
  | _ => false

/-- IEEE-754 multiplication on extended numbers: NaN propagates, an
infinity times zero is NaN, an infinity times a nonzero value follows the
sign rule. -/
def JNum.mul : JNum → JNum → JNum
  | nan, _ => nan
  | num _, nan => nan
  | posInf, nan => nan
  | negInf, nan => nan
  | num a, num b => num (a * b)
  | num a, posInf => if 0 < a then posInf else if a < 0 then negInf else nan
  | posInf, num b => if 0 < b then posInf else if b < 0 then negInf else nan
  | num a, negInf => if 0 < a then negInf else if a < 0 then posInf else nan
  | negInf, num b => if 0 < b then negInf else if b < 0 then posInf else nan
  | posInf, posInf => posInf
  | negInf, negInf => posInf
  | posInf, negInf => negInf
  | negInf, posInf => negInf

/-- A rectangle as seen by the insert validation: its coordinates are raw
JS numbers, so NaN and infinities can appear in any field. -/
structure JRect where
  x : JNum
  y : JNum
  w : JNum
  h : JNum
deriving DecidableEq

/-- The rectangle's `area` getter: `w * h`. -/
def JRect.area (r : JRect) : JNum := r.w.mul r.h

def JRect.hasNonFiniteCoord (r : JRect) : Bool :=
  !r.x.isFinite || !r.y.isFinite || !r.w.isFinite || !r.h.isFinite

/-- The validation performed by the `AddElementCommand` constructor before
any mutation: it throws exactly when `isNaN(element.getBBox().area)`. -/
def AddElementCommand.construct (bbox : JRect) : Except String Unit :=
  if (JRect.area bbox).isNaN then
    Except.error ("Elements in the image cannot have NaN bounding boxes")
  else
    Except.ok ()

/-- The node ids of the subtree below a heap address, the address itself
first (fuel-bounded descent along the child lists). -/
def subtreeIds (fuel : Nat) (st : Heap) (i : Nat) : List Nat :=
  match fuel with
  | 0 => []
  | fuel + 1 => i :: ((st.nd i).children.map (fun c => subtreeIds fuel st c)).flatten

/-- The bbox that `recomputeBBox` would assign to a node right now: the
content's bbox for a node with content, otherwise the fold of `union`
over the children's cached bboxes (`Rect2.empty` when childless).  Spec
invariant 2 asks that every tree node caches exactly this value. -/
def nodeBBoxSpec (st : Heap) (i : Nat) : Rect2 :=
  match (st.nd i).content with
  | some c => c.bbox
  | none =>
    match (st.nd i).children with
    | [] => Rect2.empty
    | c0 :: rest => rest.foldl (fun acc c => acc.union (st.nd c).bbox) (st.nd c0).bbox

/-- Decidable rendering of spec invariant 2 over the subtree at `i`. -/
def bboxInvariantHolds (fuel : Nat) (st : Heap) (i : Nat) : Bool :=
  (subtreeIds fuel st i).all (fun j => (st.nd j).bbox == nodeBBoxSpec st j)

/-- Decidable rendering of spec invariant 3 over the subtree at `i`: for
every pair of tree nodes `p`, `c`, the heap has `c.parent == p` exactly
when `c` is in `p.children`. -/
def backRefsConsistent (fuel : Nat) (st : Heap) (i : Nat) : Bool :=
  (subtreeIds fuel st i).all (fun p => (subtreeIds fuel st i).all (fun c =>
    ((st.nd c).parent == some p) == decide (c ∈ (st.nd p).children)))

def emptyHeap : Heap := ⟨[], 0⟩

/-- A unit-square element at x-position `k`, y = 0; its element id and
z-index are `k`. -/
def unitSquareAt (k : Nat) : AbstractComponent := ⟨k, ⟨(k : ℚ), 0, 1, 1⟩, (k : ℤ)⟩

/-- Scenario for claim C5: the first 31 of the spec's 40 unit squares at
x-positions 0, 1, 2, ... inserted in order into an empty image. -/
def flatInsertRun : EditorImage × Heap :=
  (List.range 31).foldl
    (fun p k =>
      let r := EditorImage.addElementDirectly 100 p.1 (unitSquareAt k) p.2
      (r.1, r.2.2))
    (EditorImage.new emptyHeap)

/-- Thirty unit squares at x = 1..30 inserted in order (all away from the
origin, which matters because the empty rectangle is the degenerate
rectangle at the origin). -/
def thirtySquaresRun : EditorImage × Heap :=
  (List.range 30).foldl
    (fun p k =>
      let r := EditorImage.addElementDirectly 100 p.1 (unitSquareAt (k + 1)) p.2
      (r.1, r.2.2))
    (EditorImage.new emptyHeap)

/-- An element whose bbox coincides with the first square's bbox, so that
insertion recurses into that square's leaf (30 children being the
fan-out target) and deepens the tree. -/
def nestedElem : AbstractComponent := ⟨100, ⟨1, 0, 1, 1⟩, 100⟩

/-- Scenario for claims C3/C4: insert the nested element; the resulting
middle component is `(image, new leaf address, heap)`. -/
def nestedAddRun : EditorImage × Nat × Heap :=
  EditorImage.addElementDirectly 100 thirtySquaresRun.1 nestedElem thirtySquaresRun.2

/-- Remove the nested element's leaf through the public `remove()`. -/
def nestedRemoveRun : Heap := ImageNode.remove 100 nestedAddRun.2.1 nestedAddRun.2.2

/-- Scenario for claim C8, continuing from `nestedRemoveRun`: one more
valid element, inserted and then immediately removed. -/
def extraElem : AbstractComponent := ⟨200, ⟨40, 0, 1, 1⟩, 200⟩

def extraAddRun : EditorImage × Nat × Heap :=
  EditorImage.addElementDirectly 100 nestedAddRun.1 extraElem nestedRemoveRun

def extraRemoveRun : Heap := ImageNode.remove 100 extraAddRun.2.1 extraAddRun.2.2

/-- A single element with a unit-square bbox at the origin. -/
def elemA7 : AbstractComponent := ⟨7, ⟨0, 0, 1, 1⟩, 0⟩

/-- One element added to an empty image through the add-element command. -/
def singleElemRun : EditorImage × Heap :=
  let n := EditorImage.new emptyHeap
  applyAddElementCommand 100 n.1 elemA7 n.2

/-- The view of the tree of `singleElemRun`: a root leaf holding the
element. -/
def singleElemView : QTree := ⟨singleElemRun.1.root, some elemA7, ⟨0, 0, 1, 1⟩, []⟩

/-- Scenario for claim C7: add the element, then unapply the add command
(the removal path present in the sources). -/
def addUnapplyRun : EditorImage × Heap :=
  unapplyAddElementCommand 100 singleElemRun.1 elemA7 singleElemRun.2

/-- Scenario for claim C9, first run: a lone image receives one element;
the result is the version id of its root node. -/
def soloImageVersionRun : Nat :=
  let a := EditorImage.new emptyHeap
  let r := EditorImage.addElementDirectly 100 a.1 elemA7 a.2
  (r.2.2.nd a.1.root).versionId

/-- Scenario for claim C9, second run: a second image is created and
receives an element before image A receives the same element as in the
first run; the result is again the version id of A's root. -/
def pairedImageVersionRun : Nat :=
  let a := EditorImage.new emptyHeap
  let b := EditorImage.new a.2
  let rb := EditorImage.addElementDirectly 100 b.1 (unitSquareAt 2) b.2
  let ra := EditorImage.addElementDirectly 100 a.1 elemA7 rb.2.2
  (ra.2.2.nd a.1.root).versionId

theorem QTree.size_mk (n : Nat) (c : Option AbstractComponent) (b : Rect2)
    (cs : List QTree) : QTree.size ⟨n, c, b, cs⟩ = 1 + (cs.map QTree.size).sum := by
  rw [QTree.size]
  rw [List.attach_map_val cs QTree.size]

theorem QTree.size_pos (t : QTree) : 0 < t.size := by
  cases t with
  | mk n c b cs =>
    rw [QTree.size_mk]
    omega

theorem Rect2.intersection_isSome (a b : Rect2) :
    (a.intersection b).isSome = a.intersects b := by
  rw [Rect2.intersection]
  by_cases h : a.intersects b = true
  · rw [if_pos h, h]
    rfl
  · rw [if_neg h]
    simp only [Bool.not_eq_true] at h
    rw [h]
    rfl

theorem Rect2.containsRect_refl (r : Rect2) : r.containsRect r = true := by
  simp [Rect2.containsRect]

theorem Rect2.intersects_of_containsRect {a b r : Rect2}
    (h1 : a.containsRect b = true) (h2 : b.intersects r = true) :
    a.intersects r = true := by
  simp only [Rect2.containsRect, Rect2.intersects, Bool.and_eq_true, decide_eq_true_eq] at *
  obtain ⟨⟨⟨hx1, hy1⟩, hx2⟩, hy2⟩ := h1
  obtain ⟨⟨⟨ix1, ix2⟩, iy1⟩, iy2⟩ := h2
  refine ⟨⟨⟨?_, ?_⟩, ?_⟩, ?_⟩ <;> linarith

theorem optionList_eq_some {α β : Type} {f : α → Option β} :
    ∀ {l : List α} {l' : List β},
      optionList f l = some l' ↔ List.Forall₂ (fun a b => f a = some b) l l' := by
  intro l
  induction l with
  | nil =>
    intro l'
    constructor
    · intro h
      rw [optionList] at h
      cases h
      exact List.Forall₂.nil
    · intro h
      cases h
      rw [optionList]
  | cons a l ih =>
    intro l'
    constructor
    · intro h
      rw [optionList] at h
      cases hfa : f a with
      | none => rw [hfa] at h; simp at h
      | some b =>
        rw [hfa] at h
        cases hml : optionList f l with
        | none => rw [hml] at h; simp at h
        | some bs =>
          rw [hml] at h
          simp at h
          subst h
          exact List.Forall₂.cons hfa (ih.mp hml)
    · intro h
      cases h with
      | cons hab htl =>
        rw [optionList, hab, ih.mpr htl]

theorem viewAt_of_view {st : Heap} {d i : Nat} {t : QTree}
    (h : st.view d i = some t) : ViewAt st i t := ⟨d, h⟩

theorem ViewAt.destruct {st : Heap} {i : Nat} {t : QTree} (h : ViewAt st i t) :
    ∃ cs, t = ⟨i, (st.nd i).content, (st.nd i).bbox, cs⟩ ∧
      i < st.nodes.length ∧
      List.Forall₂ (ViewAt st) (st.nd i).children cs := by
  obtain ⟨d, hv⟩ := h
  cases d with
  | zero => simp [Heap.view] at hv
  | succ d =>
    rw [Heap.view] at hv
    by_cases hi : i < st.nodes.length
    · rw [if_pos hi] at hv
      cases hm : optionList (st.view d) (st.nd i).children with
      | none => rw [hm] at hv; simp at hv
      | some cs =>
        rw [hm] at hv
        simp at hv
        refine ⟨cs, hv.symm, hi, ?_⟩
        exact (optionList_eq_some.mp hm).imp (fun a b hab => ⟨d, hab⟩)
    · rw [if_neg hi] at hv
      simp at hv

theorem forall₂_mem_right {α β : Type} {R : α → β → Prop} :
    ∀ {l₁ : List α} {l₂ : List β}, List.Forall₂ R l₁ l₂ →
      ∀ {b : β}, b ∈ l₂ → ∃ a ∈ l₁, R a b := by
  intro l₁ l₂ h
  induction h with
  | nil => intro b hb; simp at hb
  | cons hab htl ih =>
    intro b hb
    rcases List.mem_cons.mp hb with hb | hb
    · subst hb
      exact ⟨_, List.mem_cons_self _ _, hab⟩
    · obtain ⟨a, ha, har⟩ := ih hb
      exact ⟨a, List.mem_cons_of_mem _ ha, har⟩

theorem QTree.leavesList_content_isSome :
    ∀ (t : QTree), ∀ l ∈ t.leavesList, l.content.isSome = true := by
  intro t
  induction t using QTree.leavesList.induct with
  | case1 n c b cs hc =>
    intro l hl
    rw [QTree.leavesList, if_pos hc] at hl
    simp at hl
    subst hl
    exact hc
  | case2 n c b cs hc ih =>
    intro l hl
    rw [QTree.leavesList, if_neg hc] at hl
    rw [List.mem_flatten] at hl
    obtain ⟨ll, hll, hml⟩ := hl
    rw [List.mem_map] at hll
    obtain ⟨x, _, hxe⟩ := hll
    have hlx : l ∈ QTree.leavesList x.1 := by
      rw [hxe]
      exact hml
    exact ih x l hlx

theorem QTree.leavesList_mk_none (n : Nat) (b : Rect2) (cs : List QTree) :
    QTree.leavesList ⟨n, none, b, cs⟩ = (cs.map QTree.leavesList).flatten := by
  rw [QTree.leavesList]
  simp only [Option.isSome_none, Bool.false_eq_true, if_false]
  rw [List.attach_map_val cs QTree.leavesList]

theorem QTree.leavesList_mk_some (n : Nat) (e : AbstractComponent) (b : Rect2)
    (cs : List QTree) :
    QTree.leavesList ⟨n, some e, b, cs⟩ = [⟨n, some e, b, cs⟩] := by
  rw [QTree.leavesList]
  simp

theorem viewAt_leaves {st : Heap} :
    ∀ (t : QTree) (i : Nat), ViewAt st i t → ∀ l ∈ t.leavesList, ViewAt st l.nid l := by
  intro t
  induction t using QTree.leavesList.induct with
  | case1 n c b cs hc =>
    intro i hv l hl
    rw [QTree.leavesList, if_pos hc] at hl
    simp at hl
    subst hl
    obtain ⟨cs', he, _, _⟩ := hv.destruct
    cases he
    exact hv
  | case2 n c b cs hc ih =>
    intro i hv l hl
    rw [QTree.leavesList, if_neg hc] at hl
    rw [List.mem_flatten] at hl
    obtain ⟨ll, hll, hml⟩ := hl
    rw [List.mem_map] at hll
    obtain ⟨x, _, hxe⟩ := hll
    obtain ⟨cs', he, _, hf⟩ := hv.destruct
    cases he
    obtain ⟨j, _, hj⟩ := forall₂_mem_right hf x.2
    have hlx : l ∈ QTree.leavesList x.1 := by
      rw [hxe]
      exact hml
    exact ih x j hj l hlx

theorem contentWfB_children {n : Nat} {c : Option AbstractComponent} {b : Rect2}
    {cs : List QTree} (h : contentWfB ⟨n, c, b, cs⟩ = true) :
    ∀ x ∈ cs, contentWfB x = true := by
  rw [contentWfB, Bool.and_eq_true, List.all_eq_true] at h
  intro x hx
  exact h.2 ⟨x, hx⟩ (List.mem_attach _ _)

theorem contentWfB_isSome_nil {n : Nat} {c : Option AbstractComponent} {b : Rect2}
    {cs : List QTree} (h : contentWfB ⟨n, c, b, cs⟩ = true) (hc : c.isSome = true) :
    cs = [] := by
  rw [contentWfB, Bool.and_eq_true] at h
  have h1 := h.1
  rw [hc] at h1
  simp at h1
  exact h1

theorem leavesContainedB_children {n : Nat} {c : Option AbstractComponent} {b : Rect2}
    {cs : List QTree} (h : leavesContainedB ⟨n, c, b, cs⟩ = true) :
    ∀ x ∈ cs, leavesContainedB x = true ∧
      ∀ l ∈ x.leavesList, b.containsRect l.bbox = true := by
  rw [leavesContainedB, List.all_eq_true] at h
  intro x hx
  have hh := h ⟨x, hx⟩ (List.mem_attach _ _)
  rw [Bool.and_eq_true, List.all_eq_true] at hh
  exact ⟨hh.2, fun l hl => hh.1 l hl⟩

theorem leavesContainedB_bbox {t : QTree} (h : leavesContainedB t = true) :
    ∀ l ∈ t.leavesList, t.bbox.containsRect l.bbox = true := by
  cases t with
  | mk n c b cs =>
    intro l hl
    cases c with
    | some e =>
      rw [QTree.leavesList_mk_some] at hl
      simp at hl
      subst hl
      exact Rect2.containsRect_refl _
    | none =>
      rw [QTree.leavesList_mk_none] at hl
      rw [List.mem_flatten] at hl
      obtain ⟨ll, hll, hml⟩ := hl
      rw [List.mem_map] at hll
      obtain ⟨ch, hch, rfl⟩ := hll
      exact (leavesContainedB_children h ch hch).2 l hml

theorem queryWF_children {n : Nat} {c : Option AbstractComponent} {b : Rect2}
    {cs : List QTree} (h : queryWF ⟨n, c, b, cs⟩ = true) :
    ∀ x ∈ cs, queryWF x = true := by
  rw [queryWF, Bool.and_eq_true] at h
  intro x hx
  rw [queryWF, Bool.and_eq_true]
  exact ⟨contentWfB_children h.1 x hx, (leavesContainedB_children h.2 x hx).1⟩

theorem exists_mem_append {α : Type} {p : α → Prop} {l₁ l₂ : List α} :
    (∃ x ∈ l₁ ++ l₂, p x) ↔ (∃ x ∈ l₁, p x) ∨ (∃ x ∈ l₂, p x) := by
  constructor
  · rintro ⟨x, hx, hp⟩
    rcases List.mem_append.mp hx with h | h
    · exact Or.inl ⟨x, h, hp⟩
    · exact Or.inr ⟨x, h, hp⟩
  · rintro (⟨x, hx, hp⟩ | ⟨x, hx, hp⟩)
    · exact ⟨x, List.mem_append.mpr (Or.inl hx), hp⟩
    · exact ⟨x, List.mem_append.mpr (Or.inr hx), hp⟩

theorem exists_mem_reverse {α : Type} {p : α → Prop} {l : List α} :
    (∃ x ∈ l.reverse, p x) ↔ (∃ x ∈ l, p x) := by
  constructor
  · rintro ⟨x, hx, hp⟩
    exact ⟨x, List.mem_reverse.mp hx, hp⟩
  · rintro ⟨x, hx, hp⟩
    exact ⟨x, List.mem_reverse.mpr hx, hp⟩

theorem queryHit_head_equiv (region : Rect2) {i : Nat} {c : Option AbstractComponent}
    {b : Rect2} {cs : List QTree}
    (hwf : queryWF ⟨i, c, b, cs⟩ = true) (x : Nat) :
    (((c.isSome && (b.intersection region).isSome) = true ∧ x = i) ∨
      (∃ t' ∈ cs.filter (queryKeep region),
        ∃ l ∈ t'.leavesList, l.nid = x ∧ l.bbox.intersects region = true)) ↔
    (∃ l ∈ QTree.leavesList ⟨i, c, b, cs⟩,
      l.nid = x ∧ l.bbox.intersects region = true) := by
  have hwf' := hwf
  rw [queryWF, Bool.and_eq_true] at hwf'
  constructor
  · rintro (⟨hh, rfl⟩ | ⟨t', ht', l, hl, hnx, hint⟩)
    · rw [Bool.and_eq_true] at hh
      obtain ⟨h1, h2⟩ := hh
      cases c with
      | none => simp at h1
      | some e =>
        rw [QTree.leavesList_mk_some]
        refine ⟨⟨x, some e, b, cs⟩, by simp, rfl, ?_⟩
        rw [Rect2.intersection_isSome] at h2
        exact h2
    · rcases List.mem_filter.mp ht' with ⟨htc, _⟩
      cases c with
      | some e =>
        have : cs = [] := contentWfB_isSome_nil hwf'.1 rfl
        subst this
        simp at htc
      | none =>
        rw [QTree.leavesList_mk_none]
        refine ⟨l, ?_, hnx, hint⟩
        rw [List.mem_flatten]
        exact ⟨t'.leavesList, List.mem_map.mpr ⟨t', htc, rfl⟩, hl⟩
  · rintro ⟨l, hl, rfl, hint⟩
    cases c with
    | some e =>
      rw [QTree.leavesList_mk_some] at hl
      simp at hl
      subst hl
      left
      refine ⟨?_, rfl⟩
      rw [Bool.and_eq_true]
      refine ⟨rfl, ?_⟩
      rw [Rect2.intersection_isSome]
      exact hint
    | none =>
      right
      rw [QTree.leavesList_mk_none] at hl
      rw [List.mem_flatten] at hl
      obtain ⟨ll, hll, hml⟩ := hl
      rw [List.mem_map] at hll
      obtain ⟨ch, hch, rfl⟩ := hll
      have hcont : ch.bbox.containsRect l.bbox = true :=
        leavesContainedB_bbox (leavesContainedB_children hwf'.2 ch hch).1 l hml
      refine ⟨ch, ?_, l, hml, rfl, hint⟩
      rw [List.mem_filter]
      refine ⟨hch, ?_⟩
      rw [queryKeep]
      exact Rect2.intersects_of_containsRect hcont hint

theorem glirLoop_zero {st : Heap} {region : Rect2} {isTooSmall : Rect2 → Bool}
    {wl acc : List Nat} :
    ImageNode.getLeavesIntersectingRegionLoop st region isTooSmall 0 wl acc = acc := rfl

theorem glirLoop_nil {st : Heap} {region : Rect2} {isTooSmall : Rect2 → Bool}
    {fuel : Nat} {acc : List Nat} :
    ImageNode.getLeavesIntersectingRegionLoop st region isTooSmall (fuel + 1) [] acc = acc := rfl

theorem glirLoop_cons {st : Heap} {region : Rect2} {isTooSmall : Rect2 → Bool}
    {fuel next : Nat} {workList acc : List Nat} :
    ImageNode.getLeavesIntersectingRegionLoop st region isTooSmall (fuel + 1)
        (next :: workList) acc =
      if isTooSmall (st.nd next).bbox then
        ImageNode.getLeavesIntersectingRegionLoop st region isTooSmall fuel workList acc
      else
        ImageNode.getLeavesIntersectingRegionLoop st region isTooSmall fuel
          ((ImageNode.getChildrenIntersectingRegion st next region).reverse ++ workList)
          (if (st.nd next).content.isSome && ((st.nd next).bbox.intersection region).isSome
            then acc ++ [next] else acc) := rfl

theorem mem_glirLoop_hit {st : Heap} {region : Rect2} {isTooSmall : Rect2 → Bool} :
    ∀ (fuel : Nat) (wl acc : List Nat) (x : Nat),
      x ∈ ImageNode.getLeavesIntersectingRegionLoop st region isTooSmall fuel wl acc →
      x ∈ acc ∨ ((st.nd x).content.isSome = true ∧
        ((st.nd x).bbox.intersection region).isSome = true) := by
  intro fuel
  induction fuel with
  | zero =>
    intro wl acc x h
    exact Or.inl h
  | succ fuel ih =>
    intro wl acc x h
    cases wl with
    | nil => exact Or.inl h
    | cons next rest =>
      rw [glirLoop_cons] at h
      by_cases hts : isTooSmall (st.nd next).bbox = true
      · rw [if_pos hts] at h
        exact ih _ _ _ h
      · rw [if_neg hts] at h
        by_cases hhit : ((st.nd next).content.isSome &&
            ((st.nd next).bbox.intersection region).isSome) = true
        · rw [if_pos hhit] at h
          rcases ih _ _ _ h with hacc | hgood
          · rcases List.mem_append.mp hacc with h1 | h1
            · exact Or.inl h1
            · simp at h1
              subst h1
              rw [Bool.and_eq_true] at hhit
              exact Or.inr hhit
          · exact Or.inr hgood
        · rw [if_neg hhit] at h
          exact ih _ _ _ h

theorem mem_glirLoop_iff {st : Heap} {region : Rect2} :
    ∀ (fuel : Nat) (wl : List Nat) (ts : List QTree) (acc : List Nat) (x : Nat),
      List.Forall₂ (ViewAt st) wl ts →
      (ts.map QTree.size).sum ≤ fuel →
      (∀ t ∈ ts, queryWF t = true) →
      (x ∈ ImageNode.getLeavesIntersectingRegionLoop st region (fun _ => false) fuel wl acc ↔
        x ∈ acc ∨ ∃ t ∈ ts, ∃ l ∈ t.leavesList,
          l.nid = x ∧ l.bbox.intersects region = true) := by
  intro fuel
  induction fuel with
  | zero =>
    intro wl ts acc x hf hs hw
    cases ts with
    | nil =>
      cases hf
      rw [glirLoop_zero]
      simp
    | cons t ts' =>
      exfalso
      have := QTree.size_pos t
      rw [List.map_cons, List.sum_cons] at hs
      omega
  | succ fuel ih =>
    intro wl ts acc x hf hs hw
    cases wl with
    | nil =>
      cases ts with
      | nil =>
        rw [glirLoop_nil]
        simp
      | cons t ts' => cases hf
    | cons next rest =>
      cases ts with
      | nil => cases hf
      | cons t ts' =>
        have hv : ViewAt st next t := by
          cases hf
          assumption
        have htl : List.Forall₂ (ViewAt st) rest ts' := by
          cases hf
          assumption
        obtain ⟨cs, ht, hlt, hcf⟩ := hv.destruct
        subst ht
        rw [glirLoop_cons]
        rw [if_neg (by simp)]
        have hkeq : ∀ (a : Nat) (b : QTree), ViewAt st a b →
            ((fun cc => (st.nd cc).bbox.intersects region) a = true ↔
              queryKeep region b = true) := by
          intro a b hab
          obtain ⟨cs', hb, _, _⟩ := hab.destruct
          subst hb
          exact Iff.rfl
        have hkids : List.Forall₂ (ViewAt st)
            ((ImageNode.getChildrenIntersectingRegion st next region).reverse ++ rest)
            ((cs.filter (queryKeep region)).reverse ++ ts') := by
          refine List.rel_append (List.rel_reverse ?_) htl
          rw [ImageNode.getChildrenIntersectingRegion]
          exact List.rel_filter hkeq hcf
        have hsz : (((cs.filter (queryKeep region)).reverse ++ ts').map QTree.size).sum
            ≤ fuel := by
          rw [List.map_append, List.sum_append, List.map_reverse, List.sum_reverse]
          have h1 : ((cs.filter (queryKeep region)).map QTree.size).sum ≤
              (cs.map QTree.size).sum := by
            apply List.Sublist.sum_le_sum (List.Sublist.map _ (List.filter_sublist _))
            intro a _
            omega
          rw [List.map_cons, List.sum_cons, QTree.size_mk] at hs
          omega
        have hwf' : ∀ t' ∈ (cs.filter (queryKeep region)).reverse ++ ts',
            queryWF t' = true := by
          intro t' ht'
          rcases List.mem_append.mp ht' with h1 | h1
          · have h2 := List.mem_filter.mp (List.mem_reverse.mp h1)
            exact queryWF_children (hw _ (List.mem_cons_self _ _)) t' h2.1
          · exact hw t' (List.mem_cons_of_mem _ h1)
        have hhead := queryHit_head_equiv region
          (hw _ (List.mem_cons_self _ _)) x
        by_cases hhit : ((st.nd next).content.isSome &&
            ((st.nd next).bbox.intersection region).isSome) = true
        · rw [if_pos hhit]
          rw [ih _ _ _ x hkids hsz hwf']
          constructor
          · rintro (hacc | hrest)
            · rcases List.mem_append.mp hacc with h1 | h1
              · exact Or.inl h1
              · simp at h1
                subst h1
                exact Or.inr ⟨_, List.mem_cons_self _ _, hhead.mp (Or.inl ⟨hhit, rfl⟩)⟩
            · obtain ⟨t', ht', hP⟩ := hrest
              rcases List.mem_append.mp ht' with h1 | h1
              · exact Or.inr ⟨_, List.mem_cons_self _ _,
                  hhead.mp (Or.inr ⟨t', List.mem_reverse.mp h1, hP⟩)⟩
              · exact Or.inr ⟨t', List.mem_cons_of_mem _ h1, hP⟩
          · rintro (hacc | ⟨t', ht', hP⟩)
            · exact Or.inl (List.mem_append.mpr (Or.inl hacc))
            · rcases List.mem_cons.mp ht' with h1 | h1
              · subst h1
                rcases hhead.mpr hP with ⟨hh, rfl⟩ | ⟨t2, ht2, hP2⟩
                · exact Or.inl (List.mem_append.mpr (Or.inr (by simp)))
                · exact Or.inr ⟨t2, List.mem_append.mpr
                    (Or.inl (List.mem_reverse.mpr ht2)), hP2⟩
              · exact Or.inr ⟨t', List.mem_append.mpr (Or.inr h1), hP⟩
        · rw [if_neg hhit]
          rw [ih _ _ _ x hkids hsz hwf']
          constructor
          · rintro (hacc | ⟨t', ht', hP⟩)
            · exact Or.inl hacc
            · rcases List.mem_append.mp ht' with h1 | h1
              · exact Or.inr ⟨_, List.mem_cons_self _ _,
                  hhead.mp (Or.inr ⟨t', List.mem_reverse.mp h1, hP⟩)⟩
              · exact Or.inr ⟨t', List.mem_cons_of_mem _ h1, hP⟩
          · rintro (hacc | ⟨t', ht', hP⟩)
            · exact Or.inl hacc
            · rcases List.mem_cons.mp ht' with h1 | h1
              · subst h1
                rcases hhead.mpr hP with ⟨hh, rfl⟩ | ⟨t2, ht2, hP2⟩
                · exact absurd hh hhit
                · exact Or.inr ⟨t2, List.mem_append.mpr
                    (Or.inl (List.mem_reverse.mpr ht2)), hP2⟩
              · exact Or.inr ⟨t', List.mem_append.mpr (Or.inr h1), hP⟩

theorem viewAt_content {st : Heap} {i : Nat} {t : QTree} (h : ViewAt st i t) :
    (st.nd i).content = t.content ∧ (st.nd i).bbox = t.bbox := by
  obtain ⟨cs, he, _, _⟩ := h.destruct
  subst he
  exact ⟨rfl, rfl⟩

theorem mem_getElements_iff {fuel : Nat} {img : EditorImage} {st : Heap}
    {region : Rect2} {d : Nat} {t : QTree}
    (hv : st.view d img.root = some t)
    (hwf : queryWF t = true)
    (hfuel : t.size ≤ fuel)
    (e : AbstractComponent) :
    e ∈ EditorImage.getElementsIntersectingRegion fuel img st region ↔
      ∃ l ∈ t.leavesList, l.content = some e ∧ l.bbox.intersects region = true := by
  have hperm := List.perm_insertionSort (fun a b => zKeyD st a ≤ zKeyD st b)
    (ImageNode.getLeavesIntersectingRegion fuel st img.root region (fun _ => false))
  have hids : ∀ x : Nat,
      x ∈ ImageNode.getLeavesIntersectingRegion fuel st img.root region (fun _ => false) ↔
      ∃ l ∈ t.leavesList, l.nid = x ∧ l.bbox.intersects region = true := by
    intro x
    rw [ImageNode.getLeavesIntersectingRegion]
    rw [mem_glirLoop_iff fuel [img.root] [t] [] x
      (List.Forall₂.cons ⟨d, hv⟩ List.Forall₂.nil)
      (by rw [List.map_cons, List.map_nil, List.sum_cons, List.sum_nil]; omega)
      (by intro t' ht'; rw [List.mem_singleton] at ht'; subst ht'; exact hwf)]
    simp
  show e ∈ (sortLeavesByZIndex st _).map _ ↔ _
  constructor
  · intro he
    rw [List.mem_map] at he
    obtain ⟨x, hx, hfx⟩ := he
    rw [sortLeavesByZIndex] at hx
    have hx' := hperm.mem_iff.mp hx
    obtain ⟨l, hl, hnid, hint⟩ := (hids x).mp hx'
    have hvl := viewAt_leaves t img.root ⟨d, hv⟩ l hl
    have hsome := QTree.leavesList_content_isSome t l hl
    refine ⟨l, hl, ?_, hint⟩
    have h1 := (viewAt_content hvl).1
    rw [← hnid, h1] at hfx
    cases hc : l.content with
    | none =>
      rw [hc] at hsome
      simp at hsome
    | some e' =>
      rw [hc] at hfx
      simp at hfx
      rw [hfx]
  · rintro ⟨l, hl, hc, hint⟩
    rw [List.mem_map]
    refine ⟨l.nid, ?_, ?_⟩
    · rw [sortLeavesByZIndex, hperm.mem_iff]
      exact (hids l.nid).mpr ⟨l, hl, rfl, hint⟩
    · have hvl := viewAt_leaves t img.root ⟨d, hv⟩ l hl
      rw [(viewAt_content hvl).1, hc]
      rfl

theorem lookup_onDestroyElement (img : EditorImage) (elem : AbstractComponent) :
    (img.onDestroyElement elem).lookupElement elem.elemId = none := by
  rw [EditorImage.onDestroyElement, EditorImage.lookupElement]
  have : (img.componentsById.filter (fun p => p.1 != elem.elemId)).find?
      (fun p => p.1 == elem.elemId) = none := by
    rw [List.find?_eq_none]
    intro p hp
    have h2 := (List.mem_filter.mp hp).2
    simp at h2 ⊢
    exact h2
  rw [this]
  rfl

/-- Claim C1, counterexample: the claim requires that an element is
returned exactly when its bbox intersects the region with NON-ZERO area.
For the single stored element with bbox (0, 0, 1, 1) and the query region
(1, 0, 1, 1) — touching along the shared edge x = 1 — the code returns
the element even though the intersection (1, 0, 0, 1) has area 0, so the
stated equivalence is false at this input. -/
theorem C1_counterexample :
    ¬ ((elemA7 ∈ EditorImage.getElementsIntersectingRegion 100 singleElemRun.1
          singleElemRun.2 ⟨1, 0, 1, 1⟩) ↔
        (elemA7.bbox.intersects ⟨1, 0, 1, 1⟩ = true ∧
          ((elemA7.bbox.intersection ⟨1, 0, 1, 1⟩).map Rect2.area).getD 0 ≠ 0)) :=
  of_decide_eq_true (by with_unfolding_all rfl)

/-- Claim C1, amended: for every image state whose tree has a well-formed
view (content nodes have no children; every node's bbox contains the
bboxes of the leaves below it), every element E and every region R, E is
in the result of getElementsIntersectingRegion exactly when some leaf of
the tree holds E and that leaf's bbox intersects R — a zero-area
(edge or corner touching) intersection qualifies.  Moreover every leaf
collected by the traversal has a bbox with a non-null intersection with
R, so subtrees whose aggregate bbox does not intersect R never
contribute. -/
theorem C1_amended (fuel : Nat) (img : EditorImage) (st : Heap) (region : Rect2)
    (d : Nat) (t : QTree) (e : AbstractComponent)
    (hv : st.view d img.root = some t)
    (hwf : queryWF t = true)
    (hfuel : t.size ≤ fuel) :
    (e ∈ EditorImage.getElementsIntersectingRegion fuel img st region ↔
      ∃ l ∈ t.leavesList, l.content = some e ∧ l.bbox.intersects region = true) ∧
    (∀ x ∈ ImageNode.getLeavesIntersectingRegion fuel st img.root region (fun _ => false),
      ((st.nd x).bbox.intersection region).isSome = true) := by
  constructor
  · exact mem_getElements_iff hv hwf hfuel e
  · intro x hx
    rw [ImageNode.getLeavesIntersectingRegion] at hx
    rcases mem_glirLoop_hit fuel [img.root] [] x hx with h | h
    · simp at h
    · exact h.2

/-- Claim C1, witness: the amended theorem applied to the one-element
image and the overlapping region (0, 0, 2, 2). -/
theorem C1_amended_witness :
    (elemA7 ∈ EditorImage.getElementsIntersectingRegion 100 singleElemRun.1
        singleElemRun.2 ⟨0, 0, 2, 2⟩ ↔
      ∃ l ∈ singleElemView.leavesList, l.content = some elemA7 ∧
        l.bbox.intersects ⟨0, 0, 2, 2⟩ = true) ∧
    (∀ x ∈ ImageNode.getLeavesIntersectingRegion 100 singleElemRun.2
        singleElemRun.1.root ⟨0, 0, 2, 2⟩ (fun _ => false),
      ((singleElemRun.2.nd x).bbox.intersection ⟨0, 0, 2, 2⟩).isSome = true) :=
  C1_amended 100 singleElemRun.1 singleElemRun.2 ⟨0, 0, 2, 2⟩ 3 singleElemView elemA7
    (by with_unfolding_all rfl)
    (by simp [queryWF, contentWfB, leavesContainedB, singleElemView])
    (by simp [singleElemView, QTree.size_mk])

/-- Claim C2: for every fuel, image, heap and region, the sequence
returned by getElementsIntersectingRegion is sorted in ascending order of
element z-index.  Determinism within one call is immediate: the model of
the query (including the stable sort) is a pure function of its
arguments. -/
theorem C2_query_sorted (fuel : Nat) (img : EditorImage) (st : Heap) (region : Rect2) :
    List.Sorted (fun a b : AbstractComponent => a.zIndex ≤ b.zIndex)
      (EditorImage.getElementsIntersectingRegion fuel img st region) := by
  have hs : List.Sorted (fun a b : Nat => zKeyD st a ≤ zKeyD st b)
      (sortLeavesByZIndex st (ImageNode.getLeavesIntersectingRegion fuel st img.root
        region (fun _ => false))) := by
    rw [sortLeavesByZIndex]
    haveI : IsTotal Nat (fun a b => zKeyD st a ≤ zKeyD st b) :=
      ⟨fun a b => Int.le_total _ _⟩
    haveI : IsTrans Nat (fun a b => zKeyD st a ≤ zKeyD st b) :=
      ⟨fun a b c h1 h2 => Int.le_trans h1 h2⟩
    exact List.sorted_insertionSort _ _
  show List.Sorted _ ((sortLeavesByZIndex st _).map _)
  exact List.Pairwise.map _ (fun a b h => h) hs

/-- Claim C3 (code bug): spec invariant 2 — every internal node's cached
bbox equals the union of its children's bboxes (empty when childless),
every leaf's bbox equals its element's bbox — holds after 31 public
insertions but is broken by the following public remove: the sibling
rebalance lifts the last child of the removed leaf's parent to the root
without detaching the emptied parent from the root's child list, and the
husk's bbox becomes the empty rectangle at the origin, so the root's
cached bbox (1, 0, 30, 1) no longer equals the fold of its children's
bboxes (which now reaches the origin). -/
theorem C3_bbox_invariant_code_bug :
    bboxInvariantHolds 50 nestedAddRun.2.2 thirtySquaresRun.1.root = true ∧
    bboxInvariantHolds 50 nestedRemoveRun thirtySquaresRun.1.root = false :=
  ⟨by with_unfolding_all rfl, by with_unfolding_all rfl⟩

/-- Claim C4 (code bug): parent/child back-reference consistency — spec
invariant 3 — holds after 31 public insertions but is broken by the
following public remove: the emptied parent node stays in the root's
child list while its own parent reference has been set to null. -/
theorem C4_back_refs_code_bug :
    backRefsConsistent 50 nestedAddRun.2.2 thirtySquaresRun.1.root = true ∧
    backRefsConsistent 50 nestedRemoveRun thirtySquaresRun.1.root = false :=
  ⟨by with_unfolding_all rfl, by with_unfolding_all rfl⟩

/-- Claim C5, counterexample: after inserting the first 31 unit squares at
x = 0..30 in order into an empty index, the root has NOT split: it does
not hold at least two internal (non-leaf) children. -/
theorem C5_counterexample :
    ¬ (2 ≤ (flatInsertRun.2.nd flatInsertRun.1.root).children.countP
        (fun c => (flatInsertRun.2.nd c).content == none)) :=
  of_decide_eq_true (by with_unfolding_all rfl)

/-- Claim C5, amended: after the 31st insertion of the disjoint unit
squares the root holds a flat list of 31 leaf children — addLeaf splits a
node only when the new element's bbox contains the node's bbox while the
fan-out target is reached, and appending past the target is not checked,
so disjoint elements never trigger a split. -/
theorem C5_amended :
    (flatInsertRun.2.nd flatInsertRun.1.root).children.length = 31 ∧
    ∀ c ∈ (flatInsertRun.2.nd flatInsertRun.1.root).children,
      (flatInsertRun.2.nd c).content.isSome = true :=
  ⟨of_decide_eq_true (by with_unfolding_all rfl),
   of_decide_eq_true (by with_unfolding_all rfl)⟩

/-- Claim C6, counterexample: a bbox with a NaN x-coordinate (and area
1 * 1 = 1) is a bbox with a non-finite coordinate, yet the
AddElementCommand constructor accepts it — the claim says insertion must
fail with InvalidElementBBox for every such bbox. -/
theorem C6_counterexample :
    JRect.hasNonFiniteCoord ⟨JNum.nan, JNum.num 0, JNum.num 1, JNum.num 1⟩ = true ∧
    AddElementCommand.construct ⟨JNum.nan, JNum.num 0, JNum.num 1, JNum.num 1⟩ =
      Except.ok () :=
  ⟨rfl, rfl⟩

/-- Claim C6, amended: insertion fails (in the command constructor, before
any mutation) exactly when the bbox's area w * h is NaN.  In particular a
NaN position is accepted, an infinite width with finite nonzero height is
accepted (area is infinite, not NaN), and only coordinates that make the
area NaN (such as a NaN width) are rejected. -/
theorem C6_amended :
    (∀ b : JRect, AddElementCommand.construct b = Except.ok () ↔
      (JRect.area b).isNaN = false) ∧
    (JRect.area ⟨JNum.nan, JNum.num 0, JNum.num 1, JNum.num 1⟩).isNaN = false ∧
    (JRect.area ⟨JNum.num 0, JNum.num 0, JNum.posInf, JNum.num 1⟩).isNaN = false ∧
    (JRect.area ⟨JNum.num 0, JNum.num 0, JNum.nan, JNum.num 1⟩).isNaN = true := by
  refine ⟨?_, rfl, of_decide_eq_true (by with_unfolding_all rfl), rfl⟩
  intro b
  rw [AddElementCommand.construct]
  by_cases h : (JRect.area b).isNaN = true
  · rw [if_pos h]
    simp [h]
  · rw [if_neg h]
    simp at h
    simp [h]

/-- Claim C7, counterexample: after adding one element and removing it
through the unapply of the add command (the removal path in the sources),
the leaf is detached — the tree has no leaves — but the registry entry
remains, so lookup by the element's id does NOT report it absent. -/
theorem C7_counterexample :
    ImageNode.getLeaves 100 addUnapplyRun.2 addUnapplyRun.1.root = [] ∧
    ¬ (EditorImage.lookupElement addUnapplyRun.1 elemA7.elemId = none) :=
  ⟨by with_unfolding_all rfl, of_decide_eq_true (by with_unfolding_all rfl)⟩

/-- Claim C7, amended: unapplying an add detaches the element's leaf but
deliberately leaves the registry entry (so lookup still returns the
element, supporting id reuse across an undo/redo round-trip); the
registry entry is removed only by the separate onDestroyElement hook,
after which lookup reports the element absent. -/
theorem C7_amended :
    (ImageNode.getLeaves 100 addUnapplyRun.2 addUnapplyRun.1.root = [] ∧
      EditorImage.lookupElement addUnapplyRun.1 elemA7.elemId = some elemA7) ∧
    (∀ (img : EditorImage) (elem : AbstractComponent),
      (img.onDestroyElement elem).lookupElement elem.elemId = none) :=
  ⟨⟨by with_unfolding_all rfl, by with_unfolding_all rfl⟩,
   lookup_onDestroyElement⟩

/-- Claim C8 (code bug): starting from a reachable 30-element state that
contains a detached husk child (produced by the rebalance defect of C3 /
C4), inserting one more valid element and immediately removing it
restores the leaf count but NOT the root bbox: the re-fold of the root's
children unions in the husk's empty rectangle at the origin, moving the
root bbox from (1, 0, 30, 1) to (0, 0, 31, 1). -/
theorem C8_insert_remove_not_restored :
    (ImageNode.getLeaves 100 extraRemoveRun thirtySquaresRun.1.root).length =
      (ImageNode.getLeaves 100 nestedRemoveRun thirtySquaresRun.1.root).length ∧
    (nestedRemoveRun.nd thirtySquaresRun.1.root).bbox = ⟨1, 0, 30, 1⟩ ∧
    (extraRemoveRun.nd thirtySquaresRun.1.root).bbox = ⟨0, 0, 31, 1⟩ ∧
    ¬ ((extraRemoveRun.nd thirtySquaresRun.1.root).bbox =
        (nestedRemoveRun.nd thirtySquaresRun.1.root).bbox) :=
  ⟨of_decide_eq_true (by with_unfolding_all rfl),
   by with_unfolding_all rfl,
   by with_unfolding_all rfl,
   of_decide_eq_true (by with_unfolding_all rfl)⟩

/-- Claim C9, counterexample: the version-stamp counter is a class-static,
so its values are NOT scoped per image instance: image A's root receives
version id 1 when A is alone, but version id 3 when another image B was
created and received an insertion first, although A underwent the very
same operations in both runs. -/
theorem C9_counterexample : ¬ (pairedImageVersionRun = soloImageVersionRun) :=
  of_decide_eq_true (by with_unfolding_all rfl)

/-- Claim C9, amended: the version-stamp counter is shared process-wide by
all EditorImage instances (it is a static field of the node class), so
the version ids assigned to the nodes of one image are shifted by
insert/remove operations performed on any other instance: identical
operations on image A yield root version id 1 in isolation but 3 after
an unrelated image B was created and written to. -/
theorem C9_amended : soloImageVersionRun = 1 ∧ pairedImageVersionRun = 3 :=
  ⟨by with_unfolding_all rfl, by with_unfolding_all rfl⟩

/-- Claim C10: every node returned by getLeavesIntersectingRegion (for any
fuel, heap, start node, region and too-small predicate) and every node
returned by getLeaves has non-null content, so the non-null assertion
applied by sortLeavesByZIndex and getElementsIntersectingRegion to those
lists can never fail. -/
theorem C10_query_results_have_content :
    (∀ (fuel : Nat) (st : Heap) (i : Nat) (region : Rect2) (isTooSmall : Rect2 → Bool),
      ∀ x ∈ ImageNode.getLeavesIntersectingRegion fuel st i region isTooSmall,
        (st.nd x).content.isSome = true) ∧
    (∀ (fuel : Nat) (st : Heap) (i : Nat),
      ∀ x ∈ ImageNode.getLeaves fuel st i, (st.nd x).content.isSome = true) := by
  constructor
  · intro fuel st i region isTooSmall x hx
    rw [ImageNode.getLeavesIntersectingRegion] at hx
    rcases mem_glirLoop_hit fuel [i] [] x hx with h | h
    · simp at h
    · exact h.1
  · intro fuel
    induction fuel with
    | zero =>
      intro st i x hx
      simp [ImageNode.getLeaves] at hx
    | succ fuel ih =>
      intro st i x hx
      rw [ImageNode.getLeaves] at hx
      by_cases hc : (st.nd i).content.isSome = true
      · rw [if_pos hc] at hx
        rw [List.mem_singleton] at hx
        subst hx
        exact hc
      · rw [if_neg hc] at hx
        rw [List.mem_flatten] at hx
        obtain ⟨ll, hll, hml⟩ := hx
        rw [List.mem_map] at hll
        obtain ⟨c, hcm, rfl⟩ := hll
        exact ih st c x hml
